import Mathlib

/-!
Verification of the rectangular-barrier tunneling model in `src/main.py`
(repository honggyeong/tunneling).

The repository's core is a single pure function `transmission_coefficient`
mapping a barrier height (eV), an electron energy (eV) and a barrier width
(nm) to a transmission probability, plus three 1-D sweeps and one 2-D grid
sweep that call it pointwise.  We embed the numeric code shallowly over `ℝ`
(floating-point arithmetic is modelled as exact real arithmetic) and prove
the spec's claims about it.
-/

namespace Tunneling

noncomputable section

/-- Planck constant `h` in SI units (CODATA value, as in `scipy.constants.h`). -/
def h : ℝ := 6.62607015e-34

/-- Electron rest mass in SI units (CODATA value, as in `scipy.constants.m_e`). -/
def m_e : ℝ := 9.1093837015e-31

/-- Elementary charge in SI units (CODATA value, as in `scipy.constants.e`). -/
def e : ℝ := 1.602176634e-19

/-- Reduced Planck constant, `HBAR = h / (2 * np.pi)` from `src/main.py` line 9. -/
def HBAR : ℝ := h / (2 * Real.pi)

/-- Electron mass alias, `ME = m_e` from `src/main.py` line 10. -/
def ME : ℝ := m_e

/-- Shallow embedding of `transmission_coefficient(V0_ev, E_ev, width_nm)`
from `src/main.py` lines 12-23, with numpy float arithmetic modelled as
exact real arithmetic. -/
def transmission_coefficient (V0_ev E_ev width_nm : ℝ) : ℝ :=
  let V0 := V0_ev * e
  let E := E_ev * e
  let width := width_nm * 1e-9
  if E < V0 then
    let k := Real.sqrt (2 * ME * (V0 - E)) / HBAR
    let k0 := Real.sqrt (2 * ME * E) / HBAR
    1 / (1 + (k ^ 2 / (4 * k0 ^ 2)) * Real.sinh (k * width) ^ 2)
  else
    1.0

/-! Basic facts about the physical constants. -/

lemma e_pos : 0 < e := by norm_num [e]

lemma h_pos : 0 < h := by norm_num [h]

lemma ME_pos : 0 < ME := by norm_num [ME, m_e]

lemma HBAR_pos : 0 < HBAR :=
  div_pos h_pos (by positivity)

/-- The wavenumber inside the barrier, in the sub-barrier branch
(`k` at `src/main.py` line 18). -/
def kIn (V0_ev E_ev : ℝ) : ℝ :=
  Real.sqrt (2 * ME * (V0_ev * e - E_ev * e)) / HBAR

/-- The free wavenumber outside the barrier (`k0` at `src/main.py` line 19). -/
def kOut (E_ev : ℝ) : ℝ :=
  Real.sqrt (2 * ME * (E_ev * e)) / HBAR

/-- The value computed by the sub-barrier branch of
`transmission_coefficient` (`src/main.py` lines 18-21). -/
def subT (V0_ev E_ev width_nm : ℝ) : ℝ :=
  1 / (1 + (kIn V0_ev E_ev ^ 2 / (4 * kOut E_ev ^ 2)) *
    Real.sinh (kIn V0_ev E_ev * (width_nm * 1e-9)) ^ 2)

lemma transmission_coefficient_of_lt {V0_ev E_ev : ℝ} (w : ℝ)
    (hlt : E_ev < V0_ev) :
    transmission_coefficient V0_ev E_ev w = subT V0_ev E_ev w := by
  have hcond : E_ev * e < V0_ev * e :=
    mul_lt_mul_of_pos_right hlt e_pos
  simp only [transmission_coefficient, subT, kIn, kOut, if_pos hcond]

lemma transmission_coefficient_of_ge {V0_ev E_ev : ℝ} (w : ℝ)
    (hge : V0_ev ≤ E_ev) :
    transmission_coefficient V0_ev E_ev w = 1 := by
  have hcond : ¬ E_ev * e < V0_ev * e := by
    exact not_lt.mpr (mul_le_mul_of_nonneg_right hge e_pos.le)
  simp only [transmission_coefficient, if_neg hcond]
  norm_num

lemma kIn_pos {V0_ev E_ev : ℝ} (hlt : E_ev < V0_ev) : 0 < kIn V0_ev E_ev := by
  have hsub : 0 < V0_ev * e - E_ev * e :=
    sub_pos.mpr (mul_lt_mul_of_pos_right hlt e_pos)
  have harg : 0 < 2 * ME * (V0_ev * e - E_ev * e) := by
    have := ME_pos; positivity
  exact div_pos (Real.sqrt_pos.mpr harg) HBAR_pos

lemma kOut_pos {E_ev : ℝ} (hE : 0 < E_ev) : 0 < kOut E_ev := by
  have harg : 0 < 2 * ME * (E_ev * e) := by
    have := ME_pos; have := e_pos; positivity
  exact div_pos (Real.sqrt_pos.mpr harg) HBAR_pos

/-- The prefactor `k^2 / (4 k0^2)` in the sub-barrier branch. -/
def prefactor (V0_ev E_ev : ℝ) : ℝ :=
  kIn V0_ev E_ev ^ 2 / (4 * kOut E_ev ^ 2)

lemma prefactor_pos {V0_ev E_ev : ℝ} (hE : 0 < E_ev) (hlt : E_ev < V0_ev) :
    0 < prefactor V0_ev E_ev :=
  div_pos (pow_pos (kIn_pos hlt) 2)
    (by have := kOut_pos hE; positivity)

lemma subT_eq (V0_ev E_ev w : ℝ) :
    subT V0_ev E_ev w =
      1 / (1 + prefactor V0_ev E_ev *
        Real.sinh (kIn V0_ev E_ev * (w * 1e-9)) ^ 2) := rfl

lemma denom_pos {p s : ℝ} (hp : 0 ≤ p) : 0 < 1 + p * s ^ 2 := by
  nlinarith [sq_nonneg s, mul_nonneg hp (sq_nonneg s)]

lemma subT_pos {V0_ev E_ev : ℝ} (w : ℝ) (hE : 0 < E_ev) (hlt : E_ev < V0_ev) :
    0 < subT V0_ev E_ev w := by
  rw [subT_eq]
  exact one_div_pos.mpr (denom_pos (prefactor_pos hE hlt).le)

lemma subT_le_one {V0_ev E_ev : ℝ} (w : ℝ) (hE : 0 < E_ev)
    (hlt : E_ev < V0_ev) : subT V0_ev E_ev w ≤ 1 := by
  rw [subT_eq]
  have hp := (prefactor_pos hE hlt).le
  have hd := denom_pos (s := Real.sinh (kIn V0_ev E_ev * (w * 1e-9))) hp
  rw [div_le_one hd]
  nlinarith [mul_nonneg hp (sq_nonneg (Real.sinh (kIn V0_ev E_ev * (w * 1e-9))))]

lemma subT_lt_one {V0_ev E_ev w : ℝ} (hE : 0 < E_ev) (hlt : E_ev < V0_ev)
    (hw : 0 < w) : subT V0_ev E_ev w < 1 := by
  rw [subT_eq]
  have hp := prefactor_pos hE hlt
  have hx : 0 < kIn V0_ev E_ev * (w * 1e-9) := by
    have := kIn_pos hlt; positivity
  have hs : 0 < Real.sinh (kIn V0_ev E_ev * (w * 1e-9)) :=
    Real.sinh_pos_iff.mpr hx
  have hd := denom_pos (s := Real.sinh (kIn V0_ev E_ev * (w * 1e-9))) hp.le
  rw [div_lt_one hd]
  nlinarith [mul_pos hp (pow_pos hs 2)]

end

/-- C2: for every barrier height `V0 > 0`, electron energy `E ≥ V0` and
width `w > 0`, `transmission_coefficient V0 E w` is exactly `1.0`
(above-barrier branch, `src/main.py` lines 22-23). -/
theorem above_barrier_transmission_is_one (V0_ev E_ev w : ℝ)
    (hV0 : 0 < V0_ev) (hge : V0_ev ≤ E_ev) (hw : 0 < w) :
    transmission_coefficient V0_ev E_ev w = 1 :=
  transmission_coefficient_of_ge w hge

/-- Witness for C2 at the boundary scenario `V0 = 1.0 eV, E = 1.0 eV,
`w = 1.0 nm`. -/
theorem above_barrier_transmission_is_one_witness :
    transmission_coefficient 1 1 1 = 1 :=
  above_barrier_transmission_is_one 1 1 1 (by norm_num) (by norm_num)
    (by norm_num)

/-- C10: whenever `E ≥ V0`, the result of `transmission_coefficient` is
independent of the width argument: any two widths (including zero and
negative ones) give the same output, namely `1.0`. -/
theorem above_barrier_width_noninterference (V0_ev E_ev w1 w2 : ℝ)
    (hge : V0_ev ≤ E_ev) :
    transmission_coefficient V0_ev E_ev w1 = 1 ∧
      transmission_coefficient V0_ev E_ev w2 = 1 ∧
      transmission_coefficient V0_ev E_ev w1 =
        transmission_coefficient V0_ev E_ev w2 := by
  refine ⟨transmission_coefficient_of_ge w1 hge,
    transmission_coefficient_of_ge w2 hge, ?_⟩
  rw [transmission_coefficient_of_ge w1 hge,
    transmission_coefficient_of_ge w2 hge]

/-- Witness for C10 with `V0 = 1, E = 2` and widths `0` and `-3`. -/
theorem above_barrier_width_noninterference_witness :
    transmission_coefficient 1 2 0 = 1 ∧
      transmission_coefficient 1 2 (-3) = 1 ∧
      transmission_coefficient 1 2 0 = transmission_coefficient 1 2 (-3) :=
  above_barrier_width_noninterference 1 2 0 (-3) (by norm_num)

noncomputable section

/-- The closed-form rectangular-barrier value, written following the spec's
words (§4.1): convert to SI units first (energies times the elementary
charge, width times `1e-9`), then
`T = 1 / (1 + (k^2 / (4 k0^2)) * sinh(k w)^2)` with
`k = sqrt(2 m_e (V0 - E)) / hbar`, `k0 = sqrt(2 m_e E) / hbar` and
`hbar = h / (2 pi)`, using the CODATA constants. -/
def spec_transmission (V0_ev E_ev width_nm : ℝ) : ℝ :=
  let V0si := V0_ev * e
  let Esi := E_ev * e
  let wsi := width_nm * 1e-9
  let k := Real.sqrt (2 * m_e * (V0si - Esi)) / (h / (2 * Real.pi))
  let k0 := Real.sqrt (2 * m_e * Esi) / (h / (2 * Real.pi))
  1 / (1 + k ^ 2 / (4 * k0 ^ 2) * Real.sinh (k * wsi) ^ 2)

end

/-- C1: for every strictly positive barrier height `V0`, energy `E < V0`
and width `w`, `transmission_coefficient` agrees with the closed-form
rectangular-barrier value written exactly as the spec describes it. -/
theorem sub_barrier_matches_closed_form (V0_ev E_ev w : ℝ)
    (hV0 : 0 < V0_ev) (hlt : E_ev < V0_ev) :
    transmission_coefficient V0_ev E_ev w = spec_transmission V0_ev E_ev w := by
  rw [transmission_coefficient_of_lt w hlt]
  simp only [subT, kIn, kOut, HBAR, ME, spec_transmission]

/-- Witness for C1 at `V0 = 2 eV, E = 1 eV, w = 1 nm`. -/
theorem sub_barrier_matches_closed_form_witness :
    transmission_coefficient 2 1 1 = spec_transmission 2 1 1 :=
  sub_barrier_matches_closed_form 2 1 1 (by norm_num) (by norm_num)

/-- C9: in the sub-barrier case the transmission is an even function of the
width, and its value lies in `(0, 1]` for every real width, negative widths
included. -/
theorem sub_barrier_even_in_width (V0_ev E_ev w : ℝ)
    (hE : 0 < E_ev) (hlt : E_ev < V0_ev) :
    transmission_coefficient V0_ev E_ev w =
      transmission_coefficient V0_ev E_ev (-w) ∧
      transmission_coefficient V0_ev E_ev w ∈ Set.Ioc (0 : ℝ) 1 := by
  constructor
  · rw [transmission_coefficient_of_lt w hlt,
      transmission_coefficient_of_lt (-w) hlt]
    simp only [subT]
    have harg : kIn V0_ev E_ev * (-w * 1e-9) =
        -(kIn V0_ev E_ev * (w * 1e-9)) := by ring
    rw [harg, Real.sinh_neg, neg_sq]
  · rw [transmission_coefficient_of_lt w hlt]
    exact ⟨subT_pos w hE hlt, subT_le_one w hE hlt⟩

/-- Witness for C9 at `V0 = 2 eV, E = 1 eV, w = -1 nm`. -/
theorem sub_barrier_even_in_width_witness :
    transmission_coefficient 2 1 (-1) =
      transmission_coefficient 2 1 (-(-1)) ∧
      transmission_coefficient 2 1 (-1) ∈ Set.Ioc (0 : ℝ) 1 :=
  sub_barrier_even_in_width 2 1 (-1) (by norm_num) (by norm_num)

/-- C3: in the sub-barrier regime with positive width, the transmission lies
in the open interval `(0, 1)` and is strictly decreasing in the width. -/
theorem sub_barrier_range_and_width_decay (V0_ev E_ev w w' : ℝ)
    (hE : 0 < E_ev) (hlt : E_ev < V0_ev) (hw : 0 < w) (hww' : w < w') :
    transmission_coefficient V0_ev E_ev w ∈ Set.Ioo (0 : ℝ) 1 ∧
      transmission_coefficient V0_ev E_ev w' <
        transmission_coefficient V0_ev E_ev w := by
  have hk := kIn_pos hlt
  have hp := prefactor_pos hE hlt
  constructor
  · rw [transmission_coefficient_of_lt w hlt]
    exact ⟨subT_pos w hE hlt, subT_lt_one hE hlt hw⟩
  · rw [transmission_coefficient_of_lt w hlt,
      transmission_coefficient_of_lt w' hlt, subT_eq, subT_eq]
    have hx : 0 < kIn V0_ev E_ev * (w * 1e-9) := by positivity
    have hxx : kIn V0_ev E_ev * (w * 1e-9) <
        kIn V0_ev E_ev * (w' * 1e-9) := by
      have : w * 1e-9 < w' * 1e-9 := by linarith
      exact mul_lt_mul_of_pos_left this hk
    have hs : 0 < Real.sinh (kIn V0_ev E_ev * (w * 1e-9)) :=
      Real.sinh_pos_iff.mpr hx
    have hss : Real.sinh (kIn V0_ev E_ev * (w * 1e-9)) <
        Real.sinh (kIn V0_ev E_ev * (w' * 1e-9)) :=
      Real.sinh_lt_sinh.mpr hxx
    have hsq : Real.sinh (kIn V0_ev E_ev * (w * 1e-9)) ^ 2 <
        Real.sinh (kIn V0_ev E_ev * (w' * 1e-9)) ^ 2 :=
      pow_lt_pow_left₀ hss hs.le (by norm_num)
    have hdlt : 1 + prefactor V0_ev E_ev *
        Real.sinh (kIn V0_ev E_ev * (w * 1e-9)) ^ 2 <
        1 + prefactor V0_ev E_ev *
        Real.sinh (kIn V0_ev E_ev * (w' * 1e-9)) ^ 2 := by
      have := mul_lt_mul_of_pos_left hsq hp
      linarith
    exact one_div_lt_one_div_of_lt
      (denom_pos (s := Real.sinh (kIn V0_ev E_ev * (w * 1e-9))) hp.le) hdlt

/-- Witness for C3 at `V0 = 2 eV, E = 1 eV`, widths `1 nm < 2 nm`. -/
theorem sub_barrier_range_and_width_decay_witness :
    transmission_coefficient 2 1 1 ∈ Set.Ioo (0 : ℝ) 1 ∧
      transmission_coefficient 2 1 2 < transmission_coefficient 2 1 1 :=
  sub_barrier_range_and_width_decay 2 1 1 2 (by norm_num) (by norm_num)
    (by norm_num) (by norm_num)

/-- C7: for fixed `0 < E < V0` the transmission tends to `1` as the width
tends to `0` from above, and at `w = 0` the sub-barrier formula evaluates
to exactly `1`. -/
theorem vanishing_barrier_is_transparent (V0_ev E_ev : ℝ)
    (hE : 0 < E_ev) (hlt : E_ev < V0_ev) :
    Filter.Tendsto (fun w => transmission_coefficient V0_ev E_ev w)
        (nhdsWithin 0 (Set.Ioi 0)) (nhds 1) ∧
      transmission_coefficient V0_ev E_ev 0 = 1 := by
  have hp := prefactor_pos hE hlt
  have hzero : transmission_coefficient V0_ev E_ev 0 = 1 := by
    rw [transmission_coefficient_of_lt 0 hlt, subT_eq]
    have harg : kIn V0_ev E_ev * ((0 : ℝ) * 1e-9) = 0 := by ring
    rw [harg, Real.sinh_zero]
    norm_num
  refine ⟨?_, hzero⟩
  have heq : (fun w => transmission_coefficient V0_ev E_ev w) =
      fun w => 1 / (1 + prefactor V0_ev E_ev *
        Real.sinh (kIn V0_ev E_ev * (w * 1e-9)) ^ 2) := by
    funext w
    rw [transmission_coefficient_of_lt w hlt, subT_eq]
  rw [heq]
  have hdc : Continuous fun w : ℝ => 1 + prefactor V0_ev E_ev *
      Real.sinh (kIn V0_ev E_ev * (w * 1e-9)) ^ 2 := by
    have h1 : Continuous fun w : ℝ => kIn V0_ev E_ev * (w * 1e-9) :=
      continuous_const.mul (continuous_id.mul continuous_const)
    exact continuous_const.add
      (continuous_const.mul ((Real.continuous_sinh.comp h1).pow 2))
  have hne : ∀ w : ℝ, 1 + prefactor V0_ev E_ev *
      Real.sinh (kIn V0_ev E_ev * (w * 1e-9)) ^ 2 ≠ 0 :=
    fun w => (denom_pos hp.le).ne'
  have hcont : Continuous fun w : ℝ => 1 / (1 + prefactor V0_ev E_ev *
      Real.sinh (kIn V0_ev E_ev * (w * 1e-9)) ^ 2) :=
    continuous_const.div hdc hne
  have h0 : (1 : ℝ) / (1 + prefactor V0_ev E_ev *
      Real.sinh (kIn V0_ev E_ev * ((0 : ℝ) * 1e-9)) ^ 2) = 1 := by
    have harg : kIn V0_ev E_ev * ((0 : ℝ) * 1e-9) = 0 := by ring
    rw [harg, Real.sinh_zero]
    norm_num
  have hmain : Filter.Tendsto (fun w : ℝ => 1 / (1 + prefactor V0_ev E_ev *
      Real.sinh (kIn V0_ev E_ev * (w * 1e-9)) ^ 2)) (nhds 0) (nhds 1) := by
    have := hcont.tendsto 0
    rwa [h0] at this
  exact hmain.mono_left
    (nhdsWithin_le_nhds : nhdsWithin (0 : ℝ) (Set.Ioi 0) ≤ nhds 0)

/-- Witness for C7 at `V0 = 2 eV, E = 1 eV`. -/
theorem vanishing_barrier_is_transparent_witness :
    Filter.Tendsto (fun w => transmission_coefficient 2 1 w)
        (nhdsWithin 0 (Set.Ioi 0)) (nhds 1) ∧
      transmission_coefficient 2 1 0 = 1 :=
  vanishing_barrier_is_transparent 2 1 (by norm_num) (by norm_num)

noncomputable section

/-- The `i`-th of the `n` points of `np.linspace(a, b, n)` (endpoint
included): `a + i * (b - a) / (n - 1)`. -/
def linspace (a b : ℝ) (n : ℕ) (i : ℕ) : ℝ :=
  a + i * ((b - a) / ((n : ℝ) - 1))

/-- Height range `V0_range = np.linspace(0.1, 10, 100)` at `src/main.py` line 47. -/
def V0_sweep_range : List ℝ :=
  (List.range 100).map (fun i => linspace 0.1 10 100 i)

/-- Width range `width_range = np.linspace(0.1, 2, 100)` at `src/main.py` line 55. -/
def width_sweep_range : List ℝ :=
  (List.range 100).map (fun i => linspace 0.1 2 100 i)

/-- Energy range `E_range = np.linspace(0.1, 10, 100)` at `src/main.py` line 63. -/
def E_sweep_range : List ℝ :=
  (List.range 100).map (fun i => linspace 0.1 10 100 i)

/-- The list comprehension at `src/main.py` line 48: sweep the barrier
height, energy and width fixed. -/
def V0_sweep (E_ev width_fixed : ℝ) : List ℝ :=
  V0_sweep_range.map (fun V0 => transmission_coefficient V0 E_ev width_fixed)

/-- The list comprehension at `src/main.py` line 56: sweep the width,
height and energy fixed. -/
def width_sweep (V0_fixed E_ev : ℝ) : List ℝ :=
  width_sweep_range.map (fun width => transmission_coefficient V0_fixed E_ev width)

/-- The list comprehension at `src/main.py` line 64: sweep the electron
energy, height and width fixed. -/
def E_sweep (V0_fixed width_fixed : ℝ) : List ℝ :=
  E_sweep_range.map (fun E_val => transmission_coefficient V0_fixed E_val width_fixed)

end

/-- C8: each 1-D sweep has exactly 100 entries, and its `i`-th entry is
`transmission_coefficient` evaluated directly at the `i`-th linspace point
of the varied parameter, the other two parameters held at the
caller-supplied values. -/
theorem one_d_sweeps_pointwise (E_ev V0_fixed width_fixed : ℝ) (i : Fin 100) :
    (V0_sweep E_ev width_fixed).length = 100 ∧
      (width_sweep V0_fixed E_ev).length = 100 ∧
      (E_sweep V0_fixed width_fixed).length = 100 ∧
      (V0_sweep E_ev width_fixed)[(i : ℕ)]? =
        some (transmission_coefficient (linspace 0.1 10 100 i) E_ev width_fixed) ∧
      (width_sweep V0_fixed E_ev)[(i : ℕ)]? =
        some (transmission_coefficient V0_fixed E_ev (linspace 0.1 2 100 i)) ∧
      (E_sweep V0_fixed width_fixed)[(i : ℕ)]? =
        some (transmission_coefficient V0_fixed (linspace 0.1 10 100 i) width_fixed) := by
  have hi : (i : ℕ) < 100 := i.isLt
  refine ⟨?_, ?_, ?_, ?_, ?_, ?_⟩ <;>
    simp [V0_sweep, width_sweep, E_sweep, V0_sweep_range, width_sweep_range,
      E_sweep_range, List.getElem?_map, List.getElem?_range, hi]

noncomputable section

/-- Entry `(i, j)` of the first component of
`np.meshgrid(np.linspace(0.5, 10, 100), np.linspace(0.1, 2, 100))`
(`src/main.py` lines 26-28): row `i`, column `j` holds the `j`-th barrier
height. -/
def V0_mesh (i j : ℕ) : ℝ := linspace 0.5 10 100 j

/-- Entry `(i, j)` of the second component of the meshgrid: row `i`,
column `j` holds the `i`-th barrier width. -/
def width_mesh (i j : ℕ) : ℝ := linspace 0.1 2 100 i

/-- The row-major traversal order of the nested loop at
`src/main.py` lines 31-33. -/
def gridIndices : List (ℕ × ℕ) :=
  List.product (List.range 100) (List.range 100)

/-- One iteration of the loop body
`transmission_map[i, j] = transmission_coefficient(V0_mesh[i, j], E_ev, width_mesh[i, j])`. -/
def fillCell (E_ev : ℝ) (m : ℕ → ℕ → ℝ) (ij : ℕ × ℕ) : ℕ → ℕ → ℝ :=
  Function.update m ij.1
    (Function.update (m ij.1) ij.2
      (transmission_coefficient (V0_mesh ij.1 ij.2) E_ev (width_mesh ij.1 ij.2)))

/-- The matrix produced by `plot_transmission_coefficient`
(`src/main.py` lines 30-33): start from `np.zeros_like(V0_mesh)` and run
the nested fill loop. -/
def transmission_map (E_ev : ℝ) : ℕ → ℕ → ℝ :=
  gridIndices.foldl (fillCell E_ev) (fun _ _ => 0)

end

lemma foldl_fillCell_eval (E_ev : ℝ) (l : List (ℕ × ℕ)) :
    ∀ (m : ℕ → ℕ → ℝ) (i j : ℕ),
      ((i, j) ∈ l ∨
        m i j = transmission_coefficient (V0_mesh i j) E_ev (width_mesh i j)) →
      l.foldl (fillCell E_ev) m i j =
        transmission_coefficient (V0_mesh i j) E_ev (width_mesh i j) := by
  induction l with
  | nil =>
    intro m i j hm
    rcases hm with hmem | hval
    · simp at hmem
    · simpa using hval
  | cons a t ih =>
    intro m i j hm
    rw [List.foldl_cons]
    by_cases ha : a = (i, j)
    · apply ih
      right
      subst ha
      simp [fillCell, Function.update_same]
    · apply ih
      rcases hm with hmem | hval
      · rcases List.mem_cons.mp hmem with h1 | h1
        · exact absurd h1.symm ha
        · exact Or.inl h1
      · right
        have hskip : fillCell E_ev m a i j = m i j := by
          by_cases hi : i = a.1
          · have hj : j ≠ a.2 := by
              intro hj
              exact ha (Prod.ext hi.symm hj.symm)
            simp [fillCell, Function.update_apply, hi, hj]
          · simp [fillCell, Function.update_apply, hi]
        rw [hskip]
        exact hval

/-- C5: every cell `(i, j)` of the 100 by 100 grid equals
`transmission_coefficient` called directly on the `j`-th barrier-height
point of `np.linspace(0.5, 10, 100)` and the `i`-th width point of
`np.linspace(0.1, 2, 100)`, with the energy fixed: grid evaluation is
pointwise equivalent to direct scalar calls, rows indexing widths and
columns indexing heights. -/
theorem grid_sweep_pointwise (E_ev : ℝ) (i j : Fin 100) :
    transmission_map E_ev i j =
      transmission_coefficient (linspace 0.5 10 100 j) E_ev
        (linspace 0.1 2 100 i) := by
  have hmem : ((i : ℕ), (j : ℕ)) ∈ gridIndices := by
    rw [gridIndices, List.pair_mem_product]
    exact ⟨List.mem_range.mpr i.isLt, List.mem_range.mpr j.isLt⟩
  exact foldl_fillCell_eval E_ev gridIndices (fun _ _ => 0) i j (Or.inl hmem)

noncomputable section

/-- Square root `np.sqrt` on a `float64` scalar: a negative argument yields `nan` with
a runtime warning, never an exception, so the operation is modelled as the
total real square root wrapped in `Except.ok`. -/
def npsqrt (x : ℝ) : Except String ℝ := Except.ok (Real.sqrt x)

/-- Division where the divisor is a numpy `float64` scalar: a zero divisor
yields `inf`/`nan` with a runtime warning, never a `ZeroDivisionError`, so
the operation is modelled as total real division wrapped in `Except.ok`. -/
def npdiv (a b : ℝ) : Except String ℝ := Except.ok (a / b)

/-- Exception-aware embedding of `transmission_coefficient`
(`src/main.py` lines 12-23): every primitive that could conceivably raise
is made explicit in the `Except` monad.  In the source, `np.sqrt` always
returns a `float64`, so every division in the function is a numpy
division and no path raises. -/
def transmission_coefficientE (V0_ev E_ev width_nm : ℝ) : Except String ℝ := do
  let V0 := V0_ev * e
  let E := E_ev * e
  let width := width_nm * 1e-9
  if E < V0 then do
    let s1 ← npsqrt (2 * ME * (V0 - E))
    let k ← npdiv s1 HBAR
    let s2 ← npsqrt (2 * ME * E)
    let k0 ← npdiv s2 HBAR
    let q ← npdiv (k ^ 2) (4 * k0 ^ 2)
    let T ← npdiv 1 (1 + q * Real.sinh (k * width) ^ 2)
    return T
  else
    return 1.0

end

lemma prefactor_eq {V0_ev E_ev : ℝ} (hE : 0 < E_ev) (hlt : E_ev < V0_ev) :
    prefactor V0_ev E_ev = (V0_ev - E_ev) / (4 * E_ev) := by
  have h1 : (0 : ℝ) ≤ 2 * ME * (V0_ev * e - E_ev * e) := by
    have hsub : 0 ≤ V0_ev * e - E_ev * e :=
      (sub_pos.mpr (mul_lt_mul_of_pos_right hlt e_pos)).le
    have := ME_pos
    positivity
  have h2 : (0 : ℝ) ≤ 2 * ME * (E_ev * e) := by
    have := ME_pos; have := e_pos
    positivity
  rw [prefactor, kIn, kOut, div_pow, div_pow, Real.sq_sqrt h1, Real.sq_sqrt h2]
  have hME := ME_pos.ne'
  have he := e_pos.ne'
  have hH := HBAR_pos.ne'
  field_simp
  ring

lemma sinh_le_half_exp (x : ℝ) : Real.sinh x ≤ Real.exp x / 2 := by
  rw [Real.sinh_eq]
  have := Real.exp_pos (-x)
  linarith

lemma quarter_exp_le_sinh {x : ℝ} (hx : 1 ≤ x) :
    Real.exp x / 4 ≤ Real.sinh x := by
  rw [Real.sinh_eq]
  have h1 : (2 : ℝ) ≤ Real.exp x := by
    have h2 := Real.exp_le_exp.mpr hx
    have h3 := Real.exp_one_gt_d9
    linarith
  have h4 : Real.exp (-x) ≤ 1 := Real.exp_le_one_iff.mpr (by linarith)
  linarith

/-- C4 (amended): for a fixed electron energy `0 < E` and fixed width
`w > 0`, the transmission is strictly decreasing as the energy deficit
`V0 - E` increases, that is, strictly decreasing in the barrier height. -/
theorem deficit_decay_same_energy (E_ev w V0_ev V0'_ev : ℝ)
    (hE : 0 < E_ev) (hlt : E_ev < V0_ev) (hVV : V0_ev < V0'_ev)
    (hw : 0 < w) :
    transmission_coefficient V0'_ev E_ev w <
      transmission_coefficient V0_ev E_ev w := by
  have hlt' : E_ev < V0'_ev := hlt.trans hVV
  rw [transmission_coefficient_of_lt w hlt,
    transmission_coefficient_of_lt w hlt', subT_eq, subT_eq]
  have hk := kIn_pos hlt
  have hkk : kIn V0_ev E_ev < kIn V0'_ev E_ev := by
    rw [kIn, kIn]
    have harg : 2 * ME * (V0_ev * e - E_ev * e) <
        2 * ME * (V0'_ev * e - E_ev * e) := by
      nlinarith [mul_pos (mul_pos ME_pos e_pos) (sub_pos.mpr hVV)]
    have hnn : (0 : ℝ) ≤ 2 * ME * (V0_ev * e - E_ev * e) := by
      have hsub : 0 ≤ V0_ev * e - E_ev * e :=
        (sub_pos.mpr (mul_lt_mul_of_pos_right hlt e_pos)).le
      have := ME_pos
      positivity
    exact (div_lt_div_right HBAR_pos).mpr (Real.sqrt_lt_sqrt hnn harg)
  have hpp : prefactor V0_ev E_ev < prefactor V0'_ev E_ev := by
    rw [prefactor_eq hE hlt, prefactor_eq hE hlt']
    rw [div_lt_div_iff (by positivity) (by positivity)]
    nlinarith
  have hp := prefactor_pos hE hlt
  have hx : 0 < kIn V0_ev E_ev * (w * 1e-9) := by positivity
  have hxx : kIn V0_ev E_ev * (w * 1e-9) < kIn V0'_ev E_ev * (w * 1e-9) :=
    mul_lt_mul_of_pos_right hkk (by positivity)
  have hs : 0 < Real.sinh (kIn V0_ev E_ev * (w * 1e-9)) :=
    Real.sinh_pos_iff.mpr hx
  have hss : Real.sinh (kIn V0_ev E_ev * (w * 1e-9)) <
      Real.sinh (kIn V0'_ev E_ev * (w * 1e-9)) :=
    Real.sinh_lt_sinh.mpr hxx
  have hsq : Real.sinh (kIn V0_ev E_ev * (w * 1e-9)) ^ 2 <
      Real.sinh (kIn V0'_ev E_ev * (w * 1e-9)) ^ 2 :=
    pow_lt_pow_left₀ hss hs.le (by norm_num)
  have hdlt : 1 + prefactor V0_ev E_ev *
      Real.sinh (kIn V0_ev E_ev * (w * 1e-9)) ^ 2 <
      1 + prefactor V0'_ev E_ev *
      Real.sinh (kIn V0'_ev E_ev * (w * 1e-9)) ^ 2 := by
    nlinarith [pow_pos hs 2]
  exact one_div_lt_one_div_of_lt
    (denom_pos (s := Real.sinh (kIn V0_ev E_ev * (w * 1e-9))) hp.le) hdlt

/-- Witness for the amended C4 at `E = 1 eV, w = 1 nm`, heights `2 < 3`. -/
theorem deficit_decay_same_energy_witness :
    transmission_coefficient 3 1 1 < transmission_coefficient 2 1 1 :=
  deficit_decay_same_energy 1 1 2 3 (by norm_num) (by norm_num) (by norm_num)
    (by norm_num)

set_option maxHeartbeats 1600000 in
/-- C4 counterexample: two sub-barrier scenarios at the same width
`w = 1 nm`, with `0 < E < V0` in both; the second has a strictly larger
energy deficit (`101 eV > 100 eV`) but a strictly larger transmission,
refuting the claim that a larger deficit always gives a strictly smaller
transmission when the scenarios may differ in energy. -/
theorem deficit_comparison_fails :
    ((0 : ℝ) < 0.1 ∧ (0.1 : ℝ) < 100.1 ∧ (0 : ℝ) < 10000 ∧
      (10000 : ℝ) < 10101 ∧ (0 : ℝ) < 1 ∧
      (100.1 : ℝ) - 0.1 < (10101 : ℝ) - 10000) ∧
    transmission_coefficient 100.1 0.1 1 <
      transmission_coefficient 10101 10000 1 := by
  refine ⟨by norm_num, ?_⟩
  have hltA : (0.1 : ℝ) < 100.1 := by norm_num
  have hltB : (10000 : ℝ) < 10101 := by norm_num
  rw [transmission_coefficient_of_lt 1 hltA,
    transmission_coefficient_of_lt 1 hltB, subT_eq, subT_eq,
    prefactor_eq (by norm_num) hltA, prefactor_eq (by norm_num) hltB]
  have hpA : ((100.1 : ℝ) - 0.1) / (4 * 0.1) = 250 := by norm_num
  have hpB : ((10101 : ℝ) - 10000) / (4 * 10000) = 101 / 40000 := by
    norm_num
  rw [hpA, hpB]
  set xA := kIn 100.1 0.1 * (1 * 1e-9) with hxA_def
  set xB := kIn 10101 10000 * (1 * 1e-9) with hxB_def
  -- numeric bounds on the argument of sinh in each scenario
  have hargA_lb : ((5.4e-24 : ℝ)) ^ 2 ≤ 2 * ME * (100.1 * e - 0.1 * e) := by
    norm_num [ME, m_e, e]
  have hargB_ub : 2 * ME * ((10101 : ℝ) * e - 10000 * e) ≤
      ((5.43e-24 : ℝ)) ^ 2 := by
    norm_num [ME, m_e, e]
  have hsqA_lb : (5.4e-24 : ℝ) ≤
      Real.sqrt (2 * ME * (100.1 * e - 0.1 * e)) :=
    Real.le_sqrt_of_sq_le hargA_lb
  have hsqB_ub : Real.sqrt (2 * ME * ((10101 : ℝ) * e - 10000 * e)) ≤
      5.43e-24 := by
    have h2 := Real.sqrt_le_sqrt hargB_ub
    rwa [Real.sqrt_sq (by norm_num : (0 : ℝ) ≤ 5.43e-24)] at h2
  have h2pi : (0 : ℝ) < 2 * Real.pi := by positivity
  have hHB_lb : (1.0517e-34 : ℝ) ≤ HBAR := by
    unfold HBAR h
    rw [le_div_iff h2pi]
    nlinarith [Real.pi_lt_d2]
  have hHB_ub : HBAR ≤ 1.0552e-34 := by
    unfold HBAR h
    rw [div_le_iff h2pi]
    nlinarith [Real.pi_gt_d2]
  have hxA_lb : (51 : ℝ) ≤ xA := by
    rw [hxA_def, kIn, div_mul_eq_mul_div, le_div_iff HBAR_pos]
    linarith
  have hxB_ub : xB ≤ 51.7 := by
    rw [hxB_def, kIn, div_mul_eq_mul_div, div_le_iff HBAR_pos]
    linarith
  have hxB_pos : 0 < xB := by
    rw [hxB_def]
    have := kIn_pos hltB
    positivity
  -- sinh bounds through exp
  have hsA := quarter_exp_le_sinh (by linarith : (1 : ℝ) ≤ xA)
  have hsB := sinh_le_half_exp xB
  have hsB0 : 0 ≤ Real.sinh xB := (Real.sinh_pos_iff.mpr hxB_pos).le
  have hsA2 : Real.exp xA ^ 2 / 16 ≤ Real.sinh xA ^ 2 := by
    nlinarith [Real.exp_pos xA]
  have hsB2 : Real.sinh xB ^ 2 ≤ Real.exp xB ^ 2 / 4 := by
    nlinarith [Real.exp_pos xB]
  -- exp xB is at most a constant multiple of exp xA
  have hexp1 : Real.exp xB ≤ Real.exp xA * Real.exp 0.7 := by
    rw [← Real.exp_add]
    exact Real.exp_le_exp.mpr (by linarith)
  have hexp2 : Real.exp (0.7 : ℝ) ≤ Real.exp 1 :=
    Real.exp_le_exp.mpr (by norm_num)
  have hexp3 := Real.exp_one_lt_d9
  have hexpB : Real.exp xB ≤ Real.exp xA * 2.72 := by
    have h0 := Real.exp_pos xA
    nlinarith
  have hexpB2 : Real.exp xB ^ 2 ≤ Real.exp xA ^ 2 * 7.4 := by
    have h0 := (Real.exp_pos xB).le
    have h1 := (Real.exp_pos xA).le
    have hsq := mul_le_mul hexpB hexpB h0
      (by positivity : (0 : ℝ) ≤ Real.exp xA * 2.72)
    nlinarith [hsq]
  -- the two denominators compare
  have key : (101 / 40000 : ℝ) * Real.sinh xB ^ 2 <
      250 * Real.sinh xA ^ 2 := by
    have h0 : (0 : ℝ) < Real.exp xA ^ 2 := by positivity
    have k1 : (101 / 40000 : ℝ) * Real.sinh xB ^ 2 ≤
        (101 / 40000) * (Real.exp xB ^ 2 / 4) := by linarith
    have k2 : (101 / 40000 : ℝ) * (Real.exp xB ^ 2 / 4) ≤
        (101 / 40000) * (Real.exp xA ^ 2 * 7.4 / 4) := by linarith
    have k3 : (101 / 40000 : ℝ) * (Real.exp xA ^ 2 * 7.4 / 4) <
        250 * (Real.exp xA ^ 2 / 16) := by linarith
    have k4 : (250 : ℝ) * (Real.exp xA ^ 2 / 16) ≤
        250 * Real.sinh xA ^ 2 := by linarith
    linarith
  have hdB : (0 : ℝ) < 1 + 101 / 40000 * Real.sinh xB ^ 2 :=
    denom_pos (by norm_num)
  exact one_div_lt_one_div_of_lt hdB (by linarith)

/-- C6: the computation never raises: for every real triple of inputs
(zero and negative values included) the exception-aware embedding returns
a value, namely the one computed by `transmission_coefficient`; in
particular at `E = 0` with `V0 > 0` the division by the zero `k0` lands in
the returned value rather than raising. -/
theorem transmission_never_raises (V0_ev E_ev w : ℝ) :
    transmission_coefficientE V0_ev E_ev w =
      Except.ok (transmission_coefficient V0_ev E_ev w) := by
  by_cases hcond : E_ev * e < V0_ev * e
  · simp [transmission_coefficientE, transmission_coefficient, npsqrt, npdiv,
      hcond, bind, Except.bind, pure, Except.pure]
  · simp [transmission_coefficientE, transmission_coefficient, npsqrt, npdiv,
      hcond, bind, Except.bind, pure, Except.pure]

end Tunneling
